import Mathlib

set_option maxRecDepth 100000

/-
  Verification of the `cred` provisioning firmware (src/src/main.c).

  The program reads a pre-staged credential record out of a fixed flash page,
  writes each credential into the modem key store, records the IMEI into
  flash and stamps a terminal result code.  This file is a shallow embedding:

  * flash is a byte map `Nat → Nat` (address to byte value), read little-endian
    exactly as the nRF target aliases `u32_t` / `u16_t` over flash bytes;
  * the external collaborators (AT command transport, nrfx flash driver,
    `nrf_inbuilt_key_write`) are oracles carried in an `Env`: the status of the
    two AT exchanges, the writability predicate of the flash driver, and the
    result stream of key-store calls (indexed by call number);
  * every run returns a `RunResult` recording the final flash byte map, the
    list of flash program operations performed, and the list of key-store
    writes attempted (the triple handed to `nrf_inbuilt_key_write`).

  Definitions mirror the C functions and keep their names:
  `remove_whitespace`, `write_imei`, `write_fw_result`,
  `parse_and_write_credential` (split into the pure decode plus the oracle
  status, iterated by `credLoop`), `write_credentials`, and `runMain` for
  `main`.
-/

/-! ## Flash layout constants (src/src/main.c lines 36-46) -/

def CRED_PAGE_ADDR : Nat := 0x2B000

def FW_RESULT_CODE_ADDR : Nat := CRED_PAGE_ADDR + 4

def IMEI_ADDR : Nat := FW_RESULT_CODE_ADDR + 4

def CRED_COUNT_ADDR : Nat := IMEI_ADDR + 16

def FIRST_CRED_ADDR : Nat := CRED_COUNT_ADDR + 1

def MAGIC_NUMBER : Nat := 0xCA5CAD1A

def ERROR_CRED_COUNT : Nat := 0xFF

def BLANK_FW_RESULT : Nat := 0xFFFFFFFF

def IMEI_LEN : Nat := 15

/-- Modelled from the spec: the end of the "designated flash page".  The
source defines only `CRED_PAGE_ADDR`; the spec's truncation requirement
(§4.1, §8) refers to the page boundary, which for the 4 KiB flash pages of
this target is `CRED_PAGE_ADDR + 0x1000`. -/
def CRED_PAGE_END : Nat := CRED_PAGE_ADDR + 0x1000

/-! ## Byte-level list access -/

/-- Byte at index `i` of a byte list (0 when out of range). -/
def byteAt (l : List Nat) (i : Nat) : Nat :=
  match l, i with
  | [], _ => 0
  | b :: _, 0 => b
  | _ :: t, n + 1 => byteAt t n

/-! ## Flash primitives (nrfx_nvmc adapter) -/

/-- Little-endian 32-bit read, as `*(u32_t *)addr` on the target. -/
def readWord (flash : Nat → Nat) (addr : Nat) : Nat :=
  flash addr + 256 * flash (addr + 1) + 65536 * flash (addr + 2) +
    16777216 * flash (addr + 3)

/-- Little-endian 16-bit read, as `*(u16_t *)addr` on the target. -/
def readHalf (flash : Nat → Nat) (addr : Nat) : Nat :=
  flash addr + 256 * flash (addr + 1)

/-- `nrfx_nvmc_word_write`: program a 32-bit word, little-endian. -/
def writeWord (flash : Nat → Nat) (addr v : Nat) : Nat → Nat :=
  fun a =>
    if a = addr then v % 256
    else if a = addr + 1 then v / 256 % 256
    else if a = addr + 2 then v / 65536 % 256
    else if a = addr + 3 then v / 16777216 % 256
    else flash a

/-- `nrfx_nvmc_bytes_write`: program consecutive bytes. -/
def writeBytes (flash : Nat → Nat) : Nat → List Nat → Nat → Nat
  | _, [] => flash
  | addr, b :: rest => writeBytes (fun a => if a = addr then b else flash a) (addr + 1) rest

/-! ## C strings and `remove_whitespace` (main.c lines 55-75) -/

/-- `strlen`: number of bytes before the first NUL. -/
def cstrlen : List Nat → Nat
  | [] => 0
  | b :: rest => if b = 0 then 0 else cstrlen rest + 1

/-- The C string held in a buffer: its bytes up to the first NUL. -/
def cstr : List Nat → List Nat
  | [] => []
  | b :: rest => if b = 0 then [] else b :: cstr rest

/-- The filter of `remove_whitespace`: `buf[i] >= 32 && buf[i] <= 126`. -/
def printableByte (b : Nat) : Bool := decide (32 ≤ b ∧ b ≤ 126)

/-- One iteration of the compaction loop of `remove_whitespace`: state is
the buffer and the write index `j`; `i` is the read index.  (The C guard
`if (j != i)` before the copy only skips a self-assignment and is dropped.) -/
def rwStep (st : List Nat × Nat) (i : Nat) : List Nat × Nat :=
  let c := byteAt st.1 i
  if printableByte c then (st.1.set st.2 c, st.2 + 1) else st

/-- `remove_whitespace`: compact the printable bytes of the C string in the
buffer to its front, NUL-terminate if anything was dropped, return 0. -/
def remove_whitespace (buf : List Nat) : Nat × List Nat :=
  let len := cstrlen buf
  let st := (List.range len).foldl rwStep (buf, 0)
  (0, if st.2 < len then st.1.set st.2 0 else st.1)

/-! ## Credential record decode (main.c lines 118-136) -/

/-- The fields `parse_and_write_credential` reads at `addr`, and the address
cursor after the entry. -/
structure ParsedEntry where
  sec_tag : Nat
  cred_type : Nat
  payload : List Nat
  nextAddr : Nat
deriving DecidableEq

/-- `parse_and_write_credential`: decode the 7-byte header at `addr`
(32-bit `sec_tag`, 8-bit `cred_type`, 16-bit `len`), take the next `len`
bytes as the payload, hand the triple to `nrf_inbuilt_key_write` — whose
status is the oracle value `kr i` for the `i`-th key-store call — and
advance the cursor by `7 + len`. -/
def parse_and_write_credential (kr : Nat → Nat) (i : Nat) (flash : Nat → Nat)
    (addr : Nat) : Nat × ParsedEntry :=
  let sec_tag := readWord flash addr
  let cred_type := flash (addr + 4)
  let len := readHalf flash (addr + 5)
  let payload := (List.range len).map (fun k => flash (addr + 7 + k))
  (kr i, ⟨sec_tag, cred_type, payload, addr + 7 + len⟩)

/-- Result of the credential loop of `write_credentials`. -/
structure LoopResult where
  failCode : Option Nat
  calls : List (Nat × Nat × List Nat)
  finalAddr : Nat
deriving DecidableEq

/-- The `for` loop of `write_credentials`: iterate
`parse_and_write_credential`; the first nonzero key-store status aborts the
loop.  `i` is the index of the next key-store call, the last argument the
number of remaining iterations. -/
def credLoop (kr : Nat → Nat) (flash : Nat → Nat) : Nat → Nat → Nat → LoopResult
  | addr, _, 0 => ⟨none, [], addr⟩
  | addr, i, n + 1 =>
    let p := parse_and_write_credential kr i flash addr
    if p.1 ≠ 0 then
      ⟨some p.1, [(p.2.sec_tag, p.2.cred_type, p.2.payload)], p.2.nextAddr⟩
    else
      let r := credLoop kr flash p.2.nextAddr (i + 1) n
      ⟨r.failCode, (p.2.sec_tag, p.2.cred_type, p.2.payload) :: r.calls, r.finalAddr⟩

/-! ## Observable effects -/

/-- A flash program operation performed through the nrfx driver. -/
inductive FlashOp where
  | programWord (addr : Nat) (value : Nat)
  | programBytes (addr : Nat) (bytes : List Nat)
deriving DecidableEq

/-- Outcome of a run: final flash bytes, flash program operations in order,
key-store writes attempted in order, and the boolean the routine returns. -/
structure RunResult where
  flash : Nat → Nat
  flashOps : List FlashOp
  keyCalls : List (Nat × Nat × List Nat)
  success : Bool

/-! ## `write_fw_result`, `write_imei`, `write_credentials`, `main` -/

/-- `write_fw_result` (main.c lines 92-98): stamp the result word. -/
def write_fw_result (flash : Nat → Nat) (result : Nat) : Nat → Nat :=
  writeWord flash FW_RESULT_CODE_ADDR result

/-- The 15 bytes `write_imei` programs: `buf[0] .. buf[14]`. -/
def imeiBytes (buf : List Nat) : List Nat :=
  (List.range IMEI_LEN).map (fun i => byteAt buf i)

/-- The writability loop of `write_imei` (main.c lines 102-108):
`nrfx_nvmc_byte_writable_check` on each of the 15 destination bytes. -/
def write_imei_check (writable : Nat → Nat → Bool) (buf : List Nat) : Bool :=
  (List.range IMEI_LEN).all (fun i => writable (IMEI_ADDR + i) (byteAt buf i))

/-- `write_imei` (main.c lines 100-116): check writability of the whole
15-byte span, then program the 15 bytes; returns the new flash map and
whether the write happened. -/
def write_imei (writable : Nat → Nat → Bool) (flash : Nat → Nat)
    (buf : List Nat) : Bool × (Nat → Nat) :=
  if write_imei_check writable buf then
    (true, writeBytes flash IMEI_ADDR (imeiBytes buf))
  else (false, flash)

/-- `write_credentials` (main.c lines 138-174): guard on the result code,
then on the credential count, then run the loop; stamp the first failing
key-store status, or 0 on success. -/
def write_credentials (kr : Nat → Nat) (flash : Nat → Nat) : RunResult :=
  if readWord flash FW_RESULT_CODE_ADDR ≠ BLANK_FW_RESULT then ⟨flash, [], [], false⟩
  else if flash CRED_COUNT_ADDR = 0 ∨ flash CRED_COUNT_ADDR = ERROR_CRED_COUNT then
    ⟨flash, [], [], false⟩
  else
    let r := credLoop kr flash FIRST_CRED_ADDR 0 (flash CRED_COUNT_ADDR)
    match r.failCode with
    | some ret =>
      ⟨write_fw_result flash ret, [FlashOp.programWord FW_RESULT_CODE_ADDR ret], r.calls, false⟩
    | none =>
      ⟨write_fw_result flash 0, [FlashOp.programWord FW_RESULT_CODE_ADDR 0], r.calls, true⟩

/-- The external world `main` runs against: initial flash bytes, the flash
driver's writability predicate, the statuses of the two AT exchanges
(`AT+CFUN=0` and `AT+CGSN`), the content of `result_buf` right after the
successful `AT+CGSN` exchange, and the key-store status stream. -/
structure Env where
  flash : Nat → Nat
  writable : Nat → Nat → Bool
  powerOffStatus : Nat
  imeiStatus : Nat
  cgsnBuf : List Nat
  keyResults : Nat → Nat

/-- `main` (main.c lines 176-230): power off the modem, read the IMEI,
normalize it, write it to flash, then write the credentials.  A nonzero AT
status or a rejected IMEI write jumps to `finish` with no further effect. -/
def runMain (env : Env) : RunResult :=
  if env.powerOffStatus ≠ 0 then ⟨env.flash, [], [], false⟩
  else if env.imeiStatus ≠ 0 then ⟨env.flash, [], [], false⟩
  else
    let buf := (remove_whitespace env.cgsnBuf).2
    let w := write_imei env.writable env.flash buf
    if w.1 then
      let r := write_credentials env.keyResults w.2
      ⟨r.flash, FlashOp.programBytes IMEI_ADDR (imeiBytes buf) :: r.flashOps,
        r.keyCalls, r.success⟩
    else ⟨env.flash, [], [], false⟩

/-! ## Staged records (for the round-trip property) -/

/-- A credential entry as the staging tool lays it out. -/
structure CredentialEntry where
  sec_tag : Nat
  cred_type : Nat
  len : Nat
  payload : List Nat
deriving DecidableEq

/-- Well-formed staged entry: fields fit their fixed widths and the payload
has the declared length. -/
def entryWF (e : CredentialEntry) : Prop :=
  e.sec_tag < 4294967296 ∧ e.cred_type < 256 ∧ e.len < 65536 ∧
    e.payload.length = e.len ∧ ∀ b ∈ e.payload, b < 256

instance (e : CredentialEntry) : Decidable (entryWF e) := by
  unfold entryWF
  infer_instance

/-- On-flash bytes of one entry: little-endian 32-bit `sec_tag`, the
`cred_type` byte, little-endian 16-bit `len`, then the payload. -/
def encodeEntry (e : CredentialEntry) : List Nat :=
  [e.sec_tag % 256, e.sec_tag / 256 % 256, e.sec_tag / 65536 % 256,
    e.sec_tag / 16777216 % 256, e.cred_type, e.len % 256, e.len / 256] ++ e.payload

/-- On-flash bytes of a sequence of entries, back to back. -/
def encodeEntries (es : List CredentialEntry) : List Nat :=
  (es.map encodeEntry).flatten

/-- The always-successful key store. -/
def kr0 : Nat → Nat := fun _ => 0

/-! ## Concrete inputs used by the claim witnesses and counterexamples -/

/-- Flash that is all zero: the result word reads 0 (already provisioned). -/
def envC1 : Env :=
  ⟨fun _ => 0, fun _ _ => true, 0, 0,
    [53, 53, 53, 53, 53, 53, 53, 53, 53, 53, 53, 53, 53, 53, 53, 0], fun _ => 0⟩

/-- Flash with a blank result word, `cred_count = 1`, and one entry at
`FIRST_CRED_ADDR` whose declared `len` (0xFE1 = 4065) runs one byte past
`CRED_PAGE_END`; bytes beyond the page read 0xAB. -/
def truncFlash : Nat → Nat := fun a =>
  if FW_RESULT_CODE_ADDR ≤ a ∧ a < FW_RESULT_CODE_ADDR + 4 then 0xFF
  else if a = CRED_COUNT_ADDR then 1
  else if a = FIRST_CRED_ADDR then 1
  else if a = FIRST_CRED_ADDR + 4 then 2
  else if a = FIRST_CRED_ADDR + 5 then 0xE1
  else if a = FIRST_CRED_ADDR + 6 then 0x0F
  else if a < CRED_PAGE_END then 0
  else 0xAB

/-- Flash with a blank result word and `cred_count = 4`. -/
def flashC3 : Nat → Nat := fun a =>
  if FW_RESULT_CODE_ADDR ≤ a ∧ a < FW_RESULT_CODE_ADDR + 4 then 0xFF
  else if a = CRED_COUNT_ADDR then 4
  else 0

/-- Key store whose third call fails with code 7 and all others succeed. -/
def krC3 : Nat → Nat := fun i => if i = 2 then 7 else 0

/-- Flash with a blank result word and `cred_count = 0`. -/
def flashC4 : Nat → Nat := fun a =>
  if FW_RESULT_CODE_ADDR ≤ a ∧ a < FW_RESULT_CODE_ADDR + 4 then 0xFF
  else 0

/-- Environment whose flash driver reports every byte non-writable. -/
def envC5 : Env :=
  ⟨fun _ => 0, fun _ _ => false, 0, 0,
    [53, 53, 53, 53, 53, 53, 53, 53, 53, 53, 53, 53, 53, 53, 53, 0], fun _ => 0⟩

/-- Two staged entries with different payload lengths. -/
def c6es : List CredentialEntry :=
  [⟨1, 2, 3, [10, 20, 30]⟩, ⟨287454020, 5, 1, [200]⟩]

/-- Flash staged with `c6es` at `FIRST_CRED_ADDR`. -/
def flashC6 : Nat → Nat := fun a => byteAt (encodeEntries c6es) (a - FIRST_CRED_ADDR)

/-- The bytes of the AT reply `"\r\n35847209234567\r\nOK\r\n"` followed by
the terminating NUL, as they sit in `result_buf`. -/
def c7Reply : List Nat :=
  [13, 10, 51, 53, 56, 52, 55, 50, 48, 57, 50, 51, 52, 53, 54, 55, 13, 10, 79, 75, 13, 10, 0]

/-- Environment whose modem power-off command fails (status 5). -/
def envC8 : Env :=
  ⟨fun _ => 0, fun _ _ => true, 5, 0, [0], fun _ => 0⟩

/-! ## List and flash helper lemmas -/

theorem byteAt_eq_headD_drop (l : List Nat) : ∀ i : Nat, byteAt l i = (l.drop i).headD 0 := by
  induction l with
  | nil => intro i; cases i <;> rfl
  | cons b t ih =>
    intro i
    cases i with
    | zero => rfl
    | succ n => exact ih n

theorem byteAt_congr_of_drop {l1 l2 : List Nat} {i : Nat} (h : l1.drop i = l2.drop i) :
    byteAt l1 i = byteAt l2 i := by
  rw [byteAt_eq_headD_drop, byteAt_eq_headD_drop, h]

theorem take_succ_byteAt (l : List Nat) : ∀ i : Nat, i < l.length →
    l.take (i + 1) = l.take i ++ [byteAt l i] := by
  induction l with
  | nil => intro i h; simp at h
  | cons b t ih =>
    intro i h
    cases i with
    | zero => rfl
    | succ n =>
      have hn : n < t.length := by simpa using h
      simp [byteAt, List.take_succ_cons, ih n hn]

theorem take_set_self (l : List Nat) : ∀ n a : Nat, (l.set n a).take n = l.take n := by
  induction l with
  | nil => intro n a; simp
  | cons b t ih =>
    intro n a
    cases n with
    | zero => simp
    | succ m => simp [List.set, List.take_succ_cons, ih m a]

theorem take_succ_set (l : List Nat) : ∀ n a : Nat, n < l.length →
    (l.set n a).take (n + 1) = l.take n ++ [a] := by
  induction l with
  | nil => intro n a h; simp at h
  | cons b t ih =>
    intro n a h
    cases n with
    | zero => rfl
    | succ m =>
      have hm : m < t.length := by simpa using h
      simp [List.set, List.take_succ_cons, ih m a hm]

theorem drop_set_of_lt (l : List Nat) : ∀ n m a : Nat, n < m →
    (l.set n a).drop m = l.drop m := by
  induction l with
  | nil => intro n m a h; simp
  | cons b t ih =>
    intro n m a h
    cases n with
    | zero =>
      cases m with
      | zero => omega
      | succ k => simp [List.set]
    | succ j =>
      cases m with
      | zero => omega
      | succ k =>
        have : j < k := by omega
        simp [List.set, ih j k a this]

theorem drop_one_drop (l : List Nat) : ∀ i : Nat, (l.drop i).drop 1 = l.drop (i + 1) := by
  induction l with
  | nil => intro i; simp
  | cons b t ih =>
    intro i
    cases i with
    | zero => simp
    | succ n => exact ih n

theorem byteAt_append_left (l r : List Nat) : ∀ k : Nat, k < l.length →
    byteAt (l ++ r) k = byteAt l k := by
  induction l with
  | nil => intro k h; simp at h
  | cons b t ih =>
    intro k h
    cases k with
    | zero => rfl
    | succ n =>
      have hn : n < t.length := by simpa using h
      simpa [byteAt] using ih n hn

theorem byteAt_append_right (l r : List Nat) : ∀ k : Nat, byteAt (l ++ r) (l.length + k) = byteAt r k := by
  induction l with
  | nil => intro k; simp
  | cons b t ih =>
    intro k
    have : t.length + 1 + k = (t.length + k) + 1 := by omega
    simp only [List.cons_append, List.length_cons, this, byteAt]
    exact ih k

theorem map_range_byteAt (l : List Nat) : (List.range l.length).map (fun k => byteAt l k) = l := by
  induction l with
  | nil => simp
  | cons b t ih =>
    have h1 : (b :: t).length = t.length + 1 := rfl
    rw [h1, List.range_succ_eq_map, List.map_cons, List.map_map]
    have h2 : ((fun k => byteAt (b :: t) k) ∘ Nat.succ) = fun k => byteAt t k := by
      funext k; rfl
    rw [h2, ih]
    rfl

theorem cstrlen_le_length (l : List Nat) : cstrlen l ≤ l.length := by
  induction l with
  | nil => simp [cstrlen]
  | cons b t ih =>
    by_cases hb : b = 0
    · simp [cstrlen, hb]
    · simp only [cstrlen, if_neg hb, List.length_cons]
      omega

theorem take_cstrlen (l : List Nat) : l.take (cstrlen l) = cstr l := by
  induction l with
  | nil => rfl
  | cons b t ih =>
    by_cases hb : b = 0
    · simp [cstrlen, cstr, hb]
    · simp [cstrlen, cstr, hb, List.take_succ_cons, ih]

theorem cstr_length (l : List Nat) : (cstr l).length = cstrlen l := by
  induction l with
  | nil => rfl
  | cons b t ih =>
    by_cases hb : b = 0
    · simp [cstrlen, cstr, hb]
    · simp [cstrlen, cstr, hb, ih]

theorem cstr_append_zero (l r : List Nat) (h : ∀ b ∈ l, b ≠ 0) : cstr (l ++ 0 :: r) = l := by
  induction l with
  | nil => simp [cstr]
  | cons b t ih =>
    have hb : b ≠ 0 := h b (List.mem_cons_self b t)
    have ht : ∀ x ∈ t, x ≠ 0 := fun x hx => h x (List.mem_cons_of_mem b hx)
    simp [cstr, hb, ih ht]

theorem writeBytes_outside (bytes : List Nat) : ∀ (flash : Nat → Nat) (addr a : Nat),
    (a < addr ∨ addr + bytes.length ≤ a) → writeBytes flash addr bytes a = flash a := by
  induction bytes with
  | nil => intro flash addr a _; rfl
  | cons b rest ih =>
    intro flash addr a h
    have hne : a ≠ addr := by
      rcases h with h | h
      · omega
      · simp only [List.length_cons] at h; omega
    have h2 : a < addr + 1 ∨ (addr + 1) + rest.length ≤ a := by
      rcases h with h | h
      · left; omega
      · simp only [List.length_cons] at h; right; omega
    simp only [writeBytes]
    rw [ih _ (addr + 1) a h2]
    simp [hne]

theorem readWord_writeWord (flash : Nat → Nat) (addr v : Nat) (h : v < 4294967296) :
    readWord (writeWord flash addr v) addr = v := by
  have e0 : writeWord flash addr v addr = v % 256 := by simp [writeWord]
  have e1 : writeWord flash addr v (addr + 1) = v / 256 % 256 := by
    simp only [writeWord]
    rw [if_neg (by omega)]
    simp
  have e2 : writeWord flash addr v (addr + 2) = v / 65536 % 256 := by
    simp only [writeWord]
    rw [if_neg (by omega), if_neg (by omega)]
    simp
  have e3 : writeWord flash addr v (addr + 3) = v / 16777216 % 256 := by
    simp only [writeWord]
    rw [if_neg (by omega), if_neg (by omega), if_neg (by omega)]
    simp
  simp only [readWord, e0, e1, e2, e3]
  omega

theorem set_decomp (l : List Nat) : ∀ n a : Nat, n < l.length →
    l.set n a = l.take n ++ a :: l.drop (n + 1) := by
  induction l with
  | nil => intro n a h; simp at h
  | cons b t ih =>
    intro n a h
    cases n with
    | zero => rfl
    | succ m =>
      have hm : m < t.length := by simpa using h
      simp [List.set, List.take_succ_cons, ih m a hm]

/-- Loop invariant of `remove_whitespace`: after reading the first `i`
bytes, the write index equals the number of printable bytes kept so far,
the kept bytes sit compacted at the front of the buffer, and the bytes from
index `i` on are still untouched. -/
theorem rw_inv (buf : List Nat) : ∀ i : Nat, i ≤ cstrlen buf →
    ((List.range i).foldl rwStep (buf, 0)).2 =
      ((buf.take i).filter printableByte).length ∧
    ((List.range i).foldl rwStep (buf, 0)).1.take
        (((buf.take i).filter printableByte).length) =
      (buf.take i).filter printableByte ∧
    ((List.range i).foldl rwStep (buf, 0)).1.drop i = buf.drop i ∧
    ((List.range i).foldl rwStep (buf, 0)).1.length = buf.length := by
  intro i
  induction i with
  | zero => intro _; simp
  | succ i ih =>
    intro hi
    obtain ⟨hj, htake, hdrop, hlen⟩ := ih (by omega)
    have hfold : (List.range (i + 1)).foldl rwStep (buf, 0) =
        rwStep ((List.range i).foldl rwStep (buf, 0)) i := by
      rw [List.range_succ, List.foldl_append]
      rfl
    set st := (List.range i).foldl rwStep (buf, 0) with hst
    have hilen : i < buf.length := by
      have := cstrlen_le_length buf
      omega
    have hbyte : byteAt st.1 i = byteAt buf i := byteAt_congr_of_drop hdrop
    have hji : st.2 ≤ i := by
      have h1 : ((buf.take i).filter printableByte).length ≤ (buf.take i).length :=
        (buf.take i).length_filter_le printableByte
      have h2 : (buf.take i).length ≤ i := by
        rw [List.length_take]; omega
      omega
    have htsucc : buf.take (i + 1) = buf.take i ++ [byteAt buf i] :=
      take_succ_byteAt buf i hilen
    have hdrop1 : st.1.drop (i + 1) = buf.drop (i + 1) := by
      rw [← drop_one_drop st.1 i, ← drop_one_drop buf i, hdrop]
    rw [hfold]
    by_cases hc : printableByte (byteAt buf i)
    · have hstep : rwStep st i = (st.1.set st.2 (byteAt buf i), st.2 + 1) := by
        simp only [rwStep, hbyte, if_pos hc]
      rw [hstep]
      have hfsucc : (buf.take (i + 1)).filter printableByte =
          (buf.take i).filter printableByte ++ [byteAt buf i] := by
        rw [htsucc, List.filter_append]
        simp [hc]
      have hjlt : st.2 < st.1.length := by omega
      refine ⟨?_, ?_, ?_, ?_⟩
      · simp [hfsucc, hj]
      · rw [hfsucc]
        have hlen2 : ((buf.take i).filter printableByte ++ [byteAt buf i]).length
            = st.2 + 1 := by
          rw [List.length_append, hj]
          rfl
        rw [hlen2]
        exact (take_succ_set st.1 st.2 (byteAt buf i) hjlt).trans (by rw [hj, htake])
      · exact (drop_set_of_lt st.1 st.2 (i + 1) (byteAt buf i) (by omega)).trans hdrop1
      · simp only [List.length_set]
        exact hlen
    · have hstep : rwStep st i = st := by
        simp only [rwStep, hbyte, if_neg hc]
      rw [hstep]
      have hfsucc : (buf.take (i + 1)).filter printableByte =
          (buf.take i).filter printableByte := by
        rw [htsucc, List.filter_append]
        simp [hc]
      exact ⟨by rw [hfsucc, hj], by rw [hfsucc, htake], hdrop1, hlen⟩

/-- What `remove_whitespace` leaves in the buffer, as a C string: exactly
the printable bytes of the input C string, in order. -/
theorem remove_whitespace_cstr (buf : List Nat) :
    cstr (remove_whitespace buf).2 = (cstr buf).filter printableByte := by
  obtain ⟨hj, htake, hdrop, hlen⟩ := rw_inv buf (cstrlen buf) (Nat.le_refl _)
  rw [take_cstrlen] at hj htake
  set st := (List.range (cstrlen buf)).foldl rwStep (buf, 0) with hst
  have hrw : (remove_whitespace buf).2 =
      if st.2 < cstrlen buf then st.1.set st.2 0 else st.1 := rfl
  by_cases hlt : st.2 < cstrlen buf
  · rw [hrw, if_pos hlt]
    have hjlen : st.2 < st.1.length := by
      have := cstrlen_le_length buf
      omega
    rw [set_decomp st.1 st.2 0 hjlen, hj, htake]
    refine cstr_append_zero _ _ ?_
    intro b hb
    have hpb : printableByte b = true := (List.mem_filter.mp hb).2
    have : 32 ≤ b ∧ b ≤ 126 := of_decide_eq_true hpb
    omega
  · rw [hrw, if_neg hlt]
    have hle : ((cstr buf).filter printableByte).length ≤ (cstr buf).length :=
      (cstr buf).length_filter_le printableByte
    rw [cstr_length] at hle
    have hjeq : st.2 = cstrlen buf := by omega
    have hflen : ((cstr buf).filter printableByte).length = (cstr buf).length := by
      rw [cstr_length]; omega
    have hfall : (cstr buf).filter printableByte = cstr buf :=
      ((cstr buf).filter_sublist).eq_of_length hflen
    have hb : st.1 = buf := by
      have h1 : st.1 = st.1.take (cstrlen buf) ++ st.1.drop (cstrlen buf) :=
        (List.take_append_drop (cstrlen buf) st.1).symm
      have h2 : st.1.take (cstrlen buf) = buf.take (cstrlen buf) := by
        have hcl : cstrlen buf = ((cstr buf).filter printableByte).length := by
          rw [hflen, cstr_length]
        rw [take_cstrlen, ← hfall, hcl]
        exact htake
      rw [h1, h2, hdrop, List.take_append_drop]
    rw [hb, hfall]

/-! ## Record decode lemmas -/

theorem parse_fst (kr : Nat → Nat) (i : Nat) (flash : Nat → Nat) (addr : Nat) :
    (parse_and_write_credential kr i flash addr).1 = kr i := rfl

theorem encodeEntry_length (e : CredentialEntry) :
    (encodeEntry e).length = 7 + e.payload.length := by
  simp [encodeEntry]
  omega

/-- Decoding an encoded entry at `addr` recovers its fields bit for bit and
advances the cursor by `7 + len`. -/
theorem parse_encoded (kr : Nat → Nat) (i : Nat) (flash : Nat → Nat) (addr : Nat)
    (e : CredentialEntry) (hwf : entryWF e)
    (hstage : ∀ k, k < (encodeEntry e).length →
      flash (addr + k) = byteAt (encodeEntry e) k) :
    parse_and_write_credential kr i flash addr =
      (kr i, ⟨e.sec_tag, e.cred_type, e.payload, addr + 7 + e.len⟩) := by
  obtain ⟨hs, hc, hl, hp, hb⟩ := hwf
  have hlen7 : (encodeEntry e).length = 7 + e.payload.length := encodeEntry_length e
  have h0 : flash addr = e.sec_tag % 256 := by
    have := hstage 0 (by omega)
    simpa using this
  have h1 : flash (addr + 1) = e.sec_tag / 256 % 256 := hstage 1 (by omega)
  have h2 : flash (addr + 2) = e.sec_tag / 65536 % 256 := hstage 2 (by omega)
  have h3 : flash (addr + 3) = e.sec_tag / 16777216 % 256 := hstage 3 (by omega)
  have h4 : flash (addr + 4) = e.cred_type := hstage 4 (by omega)
  have h5 : flash (addr + 5) = e.len % 256 := hstage 5 (by omega)
  have h6 : flash (addr + 6) = e.len / 256 := hstage 6 (by omega)
  have hsec : readWord flash addr = e.sec_tag := by
    unfold readWord
    rw [h0, h1, h2, h3]
    omega
  have hhalf : readHalf flash (addr + 5) = e.len := by
    unfold readHalf
    rw [h5, show addr + 5 + 1 = addr + 6 from by omega, h6]
    omega
  have hpay : (List.range e.len).map (fun k => flash (addr + 7 + k)) = e.payload := by
    rw [← hp]
    have hcong : ∀ k ∈ List.range e.payload.length,
        flash (addr + 7 + k) = byteAt e.payload k := by
      intro k hk
      have hk2 : k < e.payload.length := List.mem_range.mp hk
      have hb1 : flash (addr + (7 + k)) = byteAt (encodeEntry e) (7 + k) :=
        hstage (7 + k) (by omega)
      have hb2 : byteAt (encodeEntry e) (7 + k) = byteAt e.payload k := by
        simpa [encodeEntry] using byteAt_append_right
          [e.sec_tag % 256, e.sec_tag / 256 % 256, e.sec_tag / 65536 % 256,
            e.sec_tag / 16777216 % 256, e.cred_type, e.len % 256, e.len / 256] e.payload k
      rw [← Nat.add_assoc] at hb1
      rw [hb1, hb2]
    rw [List.map_congr_left hcong, map_range_byteAt]
  simp only [parse_and_write_credential]
  rw [hsec, h4, hhalf, hpay]

theorem encodeEntries_cons (e : CredentialEntry) (es : List CredentialEntry) :
    encodeEntries (e :: es) = encodeEntry e ++ encodeEntries es := by
  simp [encodeEntries]

theorem encodeEntries_length (es : List CredentialEntry)
    (hwf : ∀ e ∈ es, entryWF e) :
    (encodeEntries es).length = (es.map (fun e => 7 + e.len)).sum := by
  induction es with
  | nil => rfl
  | cons e t ih =>
    have he := hwf e (List.mem_cons_self e t)
    have ht : ∀ x ∈ t, entryWF x := fun x hx => hwf x (List.mem_cons_of_mem e hx)
    rw [encodeEntries_cons, List.length_append, encodeEntry_length, ih ht]
    simp only [List.map_cons, List.sum_cons]
    rw [he.2.2.2.1]

/-- Running the credential loop over a staged record with an
always-successful key store parses every entry back bit for bit and stops
with the cursor exactly past the encoded bytes. -/
theorem credLoop_encoded (kr : Nat → Nat) (flash : Nat → Nat)
    (hkr : ∀ i, kr i = 0) :
    ∀ (es : List CredentialEntry) (addr i : Nat),
      (∀ e ∈ es, entryWF e) →
      (∀ k, k < (encodeEntries es).length →
        flash (addr + k) = byteAt (encodeEntries es) k) →
      credLoop kr flash addr i es.length =
        ⟨none, es.map (fun e => (e.sec_tag, e.cred_type, e.payload)),
          addr + (encodeEntries es).length⟩ := by
  intro es
  induction es with
  | nil =>
    intro addr i _ _
    simp [credLoop, encodeEntries]
  | cons e t ih =>
    intro addr i hwf hstage
    have he := hwf e (List.mem_cons_self e t)
    have ht : ∀ x ∈ t, entryWF x := fun x hx => hwf x (List.mem_cons_of_mem e hx)
    have hlen7 : (encodeEntry e).length = 7 + e.payload.length := encodeEntry_length e
    have hpl : e.payload.length = e.len := he.2.2.2.1
    have hstageE : ∀ k, k < (encodeEntry e).length →
        flash (addr + k) = byteAt (encodeEntry e) k := by
      intro k hk
      have hk2 : k < (encodeEntries (e :: t)).length := by
        rw [encodeEntries_cons, List.length_append]
        omega
      rw [hstage k hk2, encodeEntries_cons, byteAt_append_left _ _ k hk]
    have hparse := parse_encoded kr i flash addr e he hstageE
    have hstageT : ∀ k, k < (encodeEntries t).length →
        flash ((addr + 7 + e.len) + k) = byteAt (encodeEntries t) k := by
      intro k hk
      have h1 : (encodeEntry e).length + k < (encodeEntries (e :: t)).length := by
        rw [encodeEntries_cons, List.length_append]
        omega
      have h2 := hstage ((encodeEntry e).length + k) h1
      rw [encodeEntries_cons, byteAt_append_right] at h2
      rw [← h2]
      congr 1
      rw [hlen7, hpl]
      omega
    have hrec := ih (addr + 7 + e.len) (i + 1) ht hstageT
    show credLoop kr flash addr i (t.length + 1) = _
    simp only [credLoop, hparse, hkr i, ne_eq, not_true_eq_false, if_false,
      ite_false]
    simp only [hrec]
    have hfin : addr + 7 + e.len + (encodeEntries t).length =
        addr + (encodeEntries (e :: t)).length := by
      rw [encodeEntries_cons, List.length_append, hlen7, hpl]
      omega
    simp [hfin]

/-- If the first `j` key-store calls succeed and the next one fails with a
nonzero code `c`, the loop stops right there: it reports `c` and has
attempted exactly `j + 1` entries. -/
theorem credLoop_fail (kr : Nat → Nat) (flash : Nat → Nat) :
    ∀ (j n addr i c : Nat), j < n → (∀ m, m < j → kr (i + m) = 0) →
      kr (i + j) = c → c ≠ 0 →
      (credLoop kr flash addr i n).failCode = some c ∧
      (credLoop kr flash addr i n).calls.length = j + 1 := by
  intro j
  induction j with
  | zero =>
    intro n addr i c hn hok hfail hc
    obtain ⟨n1, rfl⟩ : ∃ n1, n = n1 + 1 := ⟨n - 1, by omega⟩
    have hki : kr i = c := by simpa using hfail
    simp only [credLoop, parse_fst, hki]
    rw [if_pos hc]
    exact ⟨rfl, rfl⟩
  | succ j ihj =>
    intro n addr i c hn hok hfail hc
    obtain ⟨n1, rfl⟩ : ∃ n1, n = n1 + 1 := ⟨n - 1, by omega⟩
    have hki : kr i = 0 := by simpa using hok 0 (by omega)
    have hok2 : ∀ m, m < j → kr ((i + 1) + m) = 0 := by
      intro m hm
      have := hok (m + 1) (by omega)
      rwa [show i + (m + 1) = i + 1 + m from by omega] at this
    have hfail2 : kr ((i + 1) + j) = c := by
      rwa [show i + 1 + j = i + (j + 1) from by omega]
    obtain ⟨hf, hl⟩ := ihj n1 (parse_and_write_credential kr i flash addr).2.nextAddr
      (i + 1) c (by omega) hok2 hfail2 hc
    simp only [credLoop, parse_fst, hki, ne_eq, not_true_eq_false, if_false,
      ite_false]
    exact ⟨hf, by simp [hl]⟩

/-! ## Claim theorems -/

/-- Claim C10 (confirmed): `remove_whitespace` always returns 0 and rewrites
the buffer in place so that its C string becomes exactly the subsequence of
the input bytes in the printable range 32..126, in order, NUL-terminated
whenever any byte was removed (the C-string equality forces the NUL). -/
theorem C10_remove_whitespace (buf : List Nat) :
    (remove_whitespace buf).1 = 0 ∧
    cstr (remove_whitespace buf).2 = (cstr buf).filter printableByte :=
  ⟨rfl, remove_whitespace_cstr buf⟩

/-- Claim C7, amended (corrected): the normalization step removes exactly the
non-printable bytes of the reply and keeps every printable byte — including
printable padding such as the OK status token — so a multi-line AT reply is
not reduced to the IMEI digits alone. -/
theorem C7_normalization (buf : List Nat) :
    cstr (remove_whitespace buf).2 = (cstr buf).filter printableByte :=
  remove_whitespace_cstr buf

/-- Claim C7, counterexample: normalizing the reply
`"\r\n35847209234567\r\nOK\r\n"` yields the 14 digits followed by `OK`
(16 bytes, containing the non-digits 79 and 75), not only IMEI digits. -/
theorem C7_counterexample :
    cstr (remove_whitespace c7Reply).2 =
      [51, 53, 56, 52, 55, 50, 48, 57, 50, 51, 52, 53, 54, 55, 79, 75] ∧
    ¬ ((cstr (remove_whitespace c7Reply).2).length = 15 ∧
        ∀ b ∈ cstr (remove_whitespace c7Reply).2, 48 ≤ b ∧ b ≤ 57) := by
  decide

/-- Claim C9, amended (corrected): the layout places `fw_result_code`
immediately after the 32-bit magic and the imei buffer immediately after
`fw_result_code`, but `cred_count` sits 16 bytes after the imei start —
one byte beyond the 15 IMEI bytes — and the first entry immediately follows
`cred_count`. -/
theorem C9_layout :
    FW_RESULT_CODE_ADDR = CRED_PAGE_ADDR + 4 ∧
    IMEI_ADDR = FW_RESULT_CODE_ADDR + 4 ∧
    IMEI_LEN = 15 ∧
    CRED_COUNT_ADDR = IMEI_ADDR + 16 ∧
    FIRST_CRED_ADDR = CRED_COUNT_ADDR + 1 := by
  decide

/-- Claim C9, counterexample: `cred_count` does not immediately follow the
15-byte imei buffer — its address is not `IMEI_ADDR + IMEI_LEN`. -/
theorem C9_counterexample : CRED_COUNT_ADDR ≠ IMEI_ADDR + IMEI_LEN := by
  decide

/-- Claim C8 (confirmed): if the modem power-off command fails, the whole
run aborts with zero flash program operations — no IMEI bytes, no
credentials, no result code — and zero key-store calls. -/
theorem C8_power_off_fail_closed (env : Env) (h : env.powerOffStatus ≠ 0) :
    (runMain env).flashOps = [] ∧ (runMain env).keyCalls = [] ∧
    (runMain env).flash = env.flash := by
  simp [runMain, h]

theorem C8_witness :
    envC8.powerOffStatus ≠ 0 ∧
    ((runMain envC8).flashOps = [] ∧ (runMain envC8).keyCalls = [] ∧
      (runMain envC8).flash = envC8.flash) :=
  ⟨by decide, C8_power_off_fail_closed envC8 (by decide)⟩

/-- Claim C4, amended (corrected): when `cred_count` is 0 or the sentinel
0xFF, the run makes zero key-store calls and performs no flash program at
all — in particular the result-code word is left at the blank sentinel, not
stamped with the success code 0 — and `write_credentials` returns false. -/
theorem C4_sentinel_count (kr : Nat → Nat) (flash : Nat → Nat)
    (hfw : readWord flash FW_RESULT_CODE_ADDR = BLANK_FW_RESULT)
    (hcc : flash CRED_COUNT_ADDR = 0 ∨ flash CRED_COUNT_ADDR = ERROR_CRED_COUNT) :
    (write_credentials kr flash).keyCalls = [] ∧
    (write_credentials kr flash).flashOps = [] ∧
    (write_credentials kr flash).flash = flash ∧
    (write_credentials kr flash).success = false := by
  unfold write_credentials
  rw [if_neg (by simp [hfw]), if_pos hcc]
  exact ⟨rfl, rfl, rfl, rfl⟩

/-- Claim C4, counterexample: with a blank result word and `cred_count = 0`
the run performs no flash program and the result word still reads the blank
sentinel afterwards — the success code 0 is not stamped. -/
theorem C4_counterexample :
    flashC4 CRED_COUNT_ADDR = 0 ∧
    (write_credentials kr0 flashC4).flashOps = [] ∧
    readWord (write_credentials kr0 flashC4).flash FW_RESULT_CODE_ADDR =
      BLANK_FW_RESULT ∧
    BLANK_FW_RESULT ≠ 0 := by
  decide

theorem C4_witness :
    readWord flashC4 FW_RESULT_CODE_ADDR = BLANK_FW_RESULT ∧
    ((write_credentials kr0 flashC4).keyCalls = [] ∧
      (write_credentials kr0 flashC4).flashOps = [] ∧
      (write_credentials kr0 flashC4).flash = flashC4 ∧
      (write_credentials kr0 flashC4).success = false) :=
  ⟨by decide, C4_sentinel_count kr0 flashC4 (by decide) (by decide)⟩

/-- Claim C5 (confirmed): if any one of the 15 IMEI destination bytes is
reported not-writable, zero IMEI bytes are programmed and the run aborts
before touching the credential section — no flash program and no key-store
call at all; the writability check is a precondition over the whole span. -/
theorem C5_imei_atomic (env : Env)
    (h1 : env.powerOffStatus = 0) (h2 : env.imeiStatus = 0)
    (h3 : ∃ i, i < IMEI_LEN ∧
      env.writable (IMEI_ADDR + i) (byteAt (remove_whitespace env.cgsnBuf).2 i) = false) :
    (runMain env).flashOps = [] ∧ (runMain env).keyCalls = [] ∧
    (runMain env).flash = env.flash := by
  obtain ⟨i, hi, hw⟩ := h3
  have hcheck : write_imei_check env.writable (remove_whitespace env.cgsnBuf).2 = false := by
    cases hb : write_imei_check env.writable (remove_whitespace env.cgsnBuf).2 with
    | false => rfl
    | true =>
      unfold write_imei_check at hb
      have h4 := List.all_eq_true.mp hb i (List.mem_range.mpr hi)
      simp only at h4
      rw [hw] at h4
      cases h4
  have hwim : write_imei env.writable env.flash (remove_whitespace env.cgsnBuf).2 =
      (false, env.flash) := by
    unfold write_imei
    rw [hcheck]
    simp
  simp [runMain, h1, h2, hwim]

theorem C5_witness :
    (0 < IMEI_LEN ∧
      envC5.writable (IMEI_ADDR + 0) (byteAt (remove_whitespace envC5.cgsnBuf).2 0) = false) ∧
    ((runMain envC5).flashOps = [] ∧ (runMain envC5).keyCalls = [] ∧
      (runMain envC5).flash = envC5.flash) :=
  ⟨by decide, C5_imei_atomic envC5 (by decide) (by decide) ⟨0, by decide⟩⟩

/-- Claim C3 (confirmed): when the first k-1 key-store writes succeed and
the k-th returns a nonzero code c, exactly the first k entries are
attempted (the loop aborts immediately, entries after the k-th are never
written) and c is stamped verbatim as the terminal result code. -/
theorem C3_fail_fast (kr : Nat → Nat) (flash : Nat → Nat) (k c : Nat)
    (hfw : readWord flash FW_RESULT_CODE_ADDR = BLANK_FW_RESULT)
    (hc0 : flash CRED_COUNT_ADDR ≠ 0)
    (hcE : flash CRED_COUNT_ADDR ≠ ERROR_CRED_COUNT)
    (hk1 : 1 ≤ k) (hkn : k ≤ flash CRED_COUNT_ADDR)
    (hok : ∀ m, m < k - 1 → kr m = 0)
    (hfail : kr (k - 1) = c) (hcne : c ≠ 0) (hc32 : c < 4294967296) :
    (write_credentials kr flash).keyCalls.length = k ∧
    (write_credentials kr flash).flashOps =
      [FlashOp.programWord FW_RESULT_CODE_ADDR c] ∧
    readWord (write_credentials kr flash).flash FW_RESULT_CODE_ADDR = c ∧
    (write_credentials kr flash).success = false := by
  have hok2 : ∀ m, m < k - 1 → kr (0 + m) = 0 := by
    intro m hm
    simpa using hok m hm
  have hfail2 : kr (0 + (k - 1)) = c := by simpa using hfail
  obtain ⟨hf, hl⟩ := credLoop_fail kr flash (k - 1) (flash CRED_COUNT_ADDR)
    FIRST_CRED_ADDR 0 c (by omega) hok2 hfail2 hcne
  unfold write_credentials
  rw [if_neg (by simp [hfw]), if_neg (by simp [hc0, hcE])]
  simp only [hf]
  refine ⟨by rw [hl]; omega, trivial, ?_, trivial⟩
  exact readWord_writeWord flash FW_RESULT_CODE_ADDR c hc32

theorem C3_witness :
    (krC3 0 = 0 ∧ krC3 1 = 0 ∧ krC3 2 = 7 ∧ flashC3 CRED_COUNT_ADDR = 4) ∧
    ((write_credentials krC3 flashC3).keyCalls.length = 3 ∧
      (write_credentials krC3 flashC3).flashOps =
        [FlashOp.programWord FW_RESULT_CODE_ADDR 7] ∧
      readWord (write_credentials krC3 flashC3).flash FW_RESULT_CODE_ADDR = 7 ∧
      (write_credentials krC3 flashC3).success = false) :=
  ⟨by decide, C3_fail_fast krC3 flashC3 3 7 (by decide) (by decide) (by decide)
    (by decide) (by decide) (by decide) (by decide) (by decide) (by decide)⟩

/-- Claim C6 (confirmed): parsing a staged block of k entries (any k, in
particular 1..254) yields exactly the staged (sec_tag, cred_type, payload)
triples bit for bit — each entry decoded as a 7-byte header (32-bit
sec_tag, 8-bit cred_type, 16-bit len) followed by len payload bytes, the
offset advancing by 7 + len — and the final offset is the cumulative sum of
the entry sizes. -/
theorem C6_roundtrip (es : List CredentialEntry) (flash : Nat → Nat)
    (_hk1 : 1 ≤ es.length) (_hk2 : es.length ≤ 254)
    (hwf : ∀ e ∈ es, entryWF e)
    (hstage : ∀ k, k < (encodeEntries es).length →
      flash (FIRST_CRED_ADDR + k) = byteAt (encodeEntries es) k) :
    credLoop kr0 flash FIRST_CRED_ADDR 0 es.length =
      ⟨none, es.map (fun e => (e.sec_tag, e.cred_type, e.payload)),
        FIRST_CRED_ADDR + (es.map (fun e => 7 + e.len)).sum⟩ := by
  have h := credLoop_encoded kr0 flash (fun _ => rfl) es FIRST_CRED_ADDR 0 hwf hstage
  rw [h, encodeEntries_length es hwf]

theorem C6_witness :
    ((∀ e ∈ c6es, entryWF e) ∧ 1 ≤ c6es.length ∧ c6es.length ≤ 254) ∧
    credLoop kr0 flashC6 FIRST_CRED_ADDR 0 c6es.length =
      ⟨none, c6es.map (fun e => (e.sec_tag, e.cred_type, e.payload)),
        FIRST_CRED_ADDR + (c6es.map (fun e => 7 + e.len)).sum⟩ :=
  ⟨⟨by decide, by decide, by decide⟩,
    C6_roundtrip c6es flashC6 (by decide) (by decide) (by decide) (by decide)⟩

theorem byteAt_range_map (f : Nat → Nat) : ∀ n k : Nat, k < n →
    byteAt ((List.range n).map f) k = f k := by
  intro n
  induction n with
  | zero => intro k hk; omega
  | succ n ih =>
    intro k hk
    rw [List.range_succ, List.map_append]
    by_cases hkn : k < n
    · rw [byteAt_append_left _ _ k (by simpa using hkn)]
      exact ih k hkn
    · have hk2 : k = n := by omega
      subst hk2
      have hlen : ((List.range k).map f).length = k := by simp
      have := byteAt_append_right ((List.range k).map f) [f k] 0
      rw [hlen] at this
      simpa using this

/-- Claim C2 (code_bug): the parser never validates the cumulative offset
against the page bound.  On a record whose single entry declares
`len = 0xFE1`, so that the payload runs past `CRED_PAGE_END`, the decode
reads a payload byte that lies beyond the page end (`0xAB`, the byte this
model plants outside the page), the cursor ends past the page end, and
`write_credentials` completes successfully and stamps the success code 0 —
there is no truncation failure of any kind. -/
theorem C2_truncation_unchecked :
    readHalf truncFlash (FIRST_CRED_ADDR + 5) = 4065 ∧
    CRED_PAGE_END < FIRST_CRED_ADDR + 7 + 4065 ∧
    (parse_and_write_credential kr0 0 truncFlash FIRST_CRED_ADDR).2.nextAddr =
      CRED_PAGE_END + 1 ∧
    byteAt (parse_and_write_credential kr0 0 truncFlash FIRST_CRED_ADDR).2.payload
      4064 = 0xAB ∧
    truncFlash (FIRST_CRED_ADDR + 7 + 4064) = 0xAB ∧
    CRED_PAGE_END ≤ FIRST_CRED_ADDR + 7 + 4064 ∧
    (write_credentials kr0 truncFlash).success = true ∧
    readWord (write_credentials kr0 truncFlash).flash FW_RESULT_CODE_ADDR = 0 := by
  have hlen : readHalf truncFlash (FIRST_CRED_ADDR + 5) = 4065 := by decide
  have hpay : (parse_and_write_credential kr0 0 truncFlash FIRST_CRED_ADDR).2.payload =
      (List.range 4065).map (fun k => truncFlash (FIRST_CRED_ADDR + 7 + k)) := by
    simp only [parse_and_write_credential, hlen]
  have hnext : (parse_and_write_credential kr0 0 truncFlash FIRST_CRED_ADDR).2.nextAddr =
      FIRST_CRED_ADDR + 7 + 4065 := by
    simp only [parse_and_write_credential, hlen]
  refine ⟨hlen, by decide, ?_, ?_, by decide, by decide, by decide, by decide⟩
  · rw [hnext]
    decide
  · rw [hpay, byteAt_range_map _ 4065 4064 (by omega)]
    decide

/-- Claim C1, amended (corrected): when `fw_result_code` is already written
(not the blank sentinel), the run performs zero key-store writes and leaves
the result code unchanged — but the guard lives in `write_credentials` and
is consulted only after the IMEI write in `main`, so the one flash program
the run may still perform is the single 15-byte IMEI write; no credential
flash mutation happens. -/
theorem C1_guard_after_imei (env : Env)
    (h : readWord env.flash FW_RESULT_CODE_ADDR ≠ BLANK_FW_RESULT) :
    (runMain env).keyCalls = [] ∧
    readWord (runMain env).flash FW_RESULT_CODE_ADDR =
      readWord env.flash FW_RESULT_CODE_ADDR ∧
    ((runMain env).flashOps = [] ∨
      (runMain env).flashOps =
        [FlashOp.programBytes IMEI_ADDR (imeiBytes (remove_whitespace env.cgsnBuf).2)]) := by
  by_cases hp : env.powerOffStatus ≠ 0
  · simp [runMain, hp]
  · by_cases hi : env.imeiStatus ≠ 0
    · simp [runMain, hp, hi]
    · by_cases hw : write_imei_check env.writable (remove_whitespace env.cgsnBuf).2 = true
      · have hrw : readWord (writeBytes env.flash IMEI_ADDR
            (imeiBytes (remove_whitespace env.cgsnBuf).2)) FW_RESULT_CODE_ADDR =
            readWord env.flash FW_RESULT_CODE_ADDR := by
          unfold readWord
          rw [writeBytes_outside _ _ _ _ (Or.inl (by decide)),
            writeBytes_outside _ _ _ _ (Or.inl (by decide)),
            writeBytes_outside _ _ _ _ (Or.inl (by decide)),
            writeBytes_outside _ _ _ _ (Or.inl (by decide))]
        have hwim : write_imei env.writable env.flash (remove_whitespace env.cgsnBuf).2 =
            (true, writeBytes env.flash IMEI_ADDR
              (imeiBytes (remove_whitespace env.cgsnBuf).2)) := by
          unfold write_imei
          rw [if_pos hw]
        have hwc : write_credentials env.keyResults
            (writeBytes env.flash IMEI_ADDR (imeiBytes (remove_whitespace env.cgsnBuf).2)) =
            ⟨writeBytes env.flash IMEI_ADDR (imeiBytes (remove_whitespace env.cgsnBuf).2),
              [], [], false⟩ := by
          unfold write_credentials
          rw [if_pos (by rw [hrw]; exact h)]
        simp only [runMain, if_neg hp, if_neg hi, hwim, hwc]
        exact ⟨rfl, hrw, Or.inr rfl⟩
      · have hwim : write_imei env.writable env.flash (remove_whitespace env.cgsnBuf).2 =
            (false, env.flash) := by
          unfold write_imei
          rw [if_neg hw]
        simp only [runMain, if_neg hp, if_neg hi, hwim]
        exact ⟨rfl, rfl, Or.inl rfl⟩

/-- Claim C1, counterexample: with the result word already written (it
reads 0, not the blank sentinel) and a healthy modem and writable flash,
the run still performs one flash program operation — the IMEI write — so
the guard does not precede every flash mutation. -/
theorem C1_counterexample :
    readWord envC1.flash FW_RESULT_CODE_ADDR ≠ BLANK_FW_RESULT ∧
    (runMain envC1).flashOps.length = 1 := by
  decide

theorem C1_witness :
    readWord envC1.flash FW_RESULT_CODE_ADDR ≠ BLANK_FW_RESULT ∧
    ((runMain envC1).keyCalls = [] ∧
      readWord (runMain envC1).flash FW_RESULT_CODE_ADDR =
        readWord envC1.flash FW_RESULT_CODE_ADDR ∧
      ((runMain envC1).flashOps = [] ∨
        (runMain envC1).flashOps =
          [FlashOp.programBytes IMEI_ADDR (imeiBytes (remove_whitespace envC1.cgsnBuf).2)])) :=
  ⟨by decide, C1_guard_after_imei envC1 (by decide)⟩
